import Mathlib

/-!
Verification development for the Gemini-Thread-to-Markdown content script.

Strings are modelled as `List Char` (the character sequence of a JavaScript
string).  Each definition is a direct translation of the corresponding
function in the content script; DOM access, timers and other browser effects
are modelled as explicit inputs (oracles / outcome lists) where the source
consults the live page.
-/

/-- The backtick character U+0060, the fence character used by the renderer. -/
def backtickChar : Char := Char.ofNat 96

/-- Model of scanning a string with the regex `/X+/g` (maximal runs of the
character `a`) and reducing the match lengths with `Math.max`, as done in
`makeFence` / `makeInlineFence`:  `runAux a l cur best` walks `l` keeping the
length `cur` of the current run of `a` and the best (largest) completed run
`best`. -/
def runAux (a : Char) : List Char → Nat → Nat → Nat
  | [], cur, best => max cur best
  | c :: rest, cur, best =>
    if c = a then runAux a rest (cur + 1) best
    else runAux a rest 0 (max cur best)

/-- The length of the longest run of consecutive occurrences of `a`:
`String(code).match(/a+/g).reduce((m, s) => Math.max(m, s.length), 0)`. -/
def maxRun (a : Char) (l : List Char) : Nat := runAux a l 0 0

/-- Model of `makeFence` from the renderer: a fence of one more backtick than the
longest backtick run in the code, with minimum length 3. -/
def makeFence (code : List Char) : List Char :=
  List.replicate (max 3 (maxRun backtickChar code + 1)) backtickChar

/-- Model of `makeInlineFence` from the renderer: one more backtick than the longest
backtick run in the inline text (so at least one). -/
def makeInlineFence (text : List Char) : List Char :=
  List.replicate (maxRun backtickChar text + 1) backtickChar

theorem le_runAux (a : Char) (l : List Char) :
    ∀ cur best : Nat, max cur best ≤ runAux a l cur best := by
  induction l with
  | nil => intro cur best; simp [runAux]
  | cons c rest ih =>
    intro cur best
    by_cases h : c = a
    · simp only [runAux, if_pos h]
      exact le_trans (by omega) (ih (cur + 1) best)
    · simp only [runAux, if_neg h]
      exact le_trans (by omega) (ih 0 (max cur best))

theorem runAux_mono (a : Char) (l : List Char) :
    ∀ {cur cur' best best' : Nat}, cur ≤ cur' → best ≤ best' →
      runAux a l cur best ≤ runAux a l cur' best' := by
  induction l with
  | nil => intro cur cur' best best' h1 h2; simp [runAux]; omega
  | cons c rest ih =>
    intro cur cur' best best' h1 h2
    by_cases h : c = a
    · simp only [runAux, if_pos h]
      exact ih (by omega) h2
    · simp only [runAux, if_neg h]
      exact ih (le_refl 0) (by omega)

theorem replicate_pref_le (a : Char) :
    ∀ (L : Nat) (l : List Char) (cur best : Nat),
      List.replicate L a <+: l → cur + L ≤ runAux a l cur best := by
  intro L
  induction L with
  | zero =>
    intro l cur best _
    have := le_runAux a l cur best
    omega
  | succ L ih =>
    intro l cur best h
    obtain ⟨t, ht⟩ := h
    rw [List.replicate_succ, List.cons_append] at ht
    subst ht
    have hstep : runAux a (a :: (List.replicate L a ++ t)) cur best =
        runAux a (List.replicate L a ++ t) (cur + 1) best := by
      simp [runAux]
    rw [hstep]
    have := ih (List.replicate L a ++ t) (cur + 1) best ⟨t, rfl⟩
    omega

theorem replicate_inf_le (a : Char) :
    ∀ (l : List Char) (L : Nat), List.replicate L a <:+: l → L ≤ maxRun a l := by
  intro l
  induction l with
  | nil =>
    intro L h
    have := h.length_le
    simp at this
    omega
  | cons c rest ih =>
    intro L h
    rcases List.infix_cons_iff.mp h with hp | hi
    · have := replicate_pref_le a L (c :: rest) 0 0 hp
      simpa [maxRun] using this
    · have h1 := ih L hi
      unfold maxRun at h1 ⊢
      by_cases hc : c = a
      · simp only [runAux, if_pos hc]
        exact le_trans h1 (runAux_mono a rest (by omega) (le_refl 0))
      · simp only [runAux, if_neg hc]
        simpa using h1

theorem runAux_eq_max_best (a : Char) (l : List Char) :
    ∀ cur best : Nat, runAux a l cur best = max best (runAux a l cur 0) := by
  induction l with
  | nil => intro cur best; simp [runAux]; omega
  | cons c rest ih =>
    intro cur best
    by_cases h : c = a
    · simp only [runAux, if_pos h]
      exact ih (cur + 1) best
    · simp only [runAux, if_neg h]
      rw [ih 0 (max cur best), ih 0 (max cur 0)]
      omega

theorem runAux_replicate_append (a : Char) :
    ∀ (r : Nat) (t : List Char) (cur best : Nat),
      runAux a (List.replicate r a ++ t) cur best = runAux a t (cur + r) best := by
  intro r
  induction r with
  | zero => intro t cur best; simp
  | succ r ih =>
    intro t cur best
    rw [List.replicate_succ, List.cons_append]
    have hstep : runAux a (a :: (List.replicate r a ++ t)) cur best =
        runAux a (List.replicate r a ++ t) (cur + 1) best := by
      simp [runAux]
    rw [hstep, ih t (cur + 1) best]
    congr 1
    omega

theorem maxRun_replicate (a : Char) (m : Nat) : maxRun a (List.replicate m a) = m := by
  unfold maxRun
  have := runAux_replicate_append a m [] 0 0
  simp only [List.append_nil] at this
  rw [this]
  simp [runAux]

theorem maxRun_achieved (a : Char) :
    ∀ (l : List Char) (cur best : Nat),
      runAux a l cur best ≤ best ∨
        List.replicate (runAux a l cur best) a <:+: List.replicate cur a ++ l := by
  intro l
  induction l with
  | nil =>
    intro cur best
    have hnil : runAux a [] cur best = max cur best := rfl
    rcases Nat.le_total cur best with h | h
    · left
      rw [hnil]
      omega
    · right
      rw [hnil]
      have hm : max cur best = cur := by omega
      rw [hm]
      exact ⟨[], [], by simp⟩
  | cons c rest ih =>
    intro cur best
    by_cases hc : c = a
    · simp only [runAux, if_pos hc]
      rcases ih (cur + 1) best with h | h
      · left; exact h
      · right
        have heq : List.replicate (cur + 1) a ++ rest = List.replicate cur a ++ c :: rest := by
          rw [List.replicate_succ', hc]
          simp
        rwa [heq] at h
    · simp only [runAux, if_neg hc]
      rcases ih 0 (max cur best) with h | h
      · rcases le_max_iff.mp h with hcur | hb
        · right
          have hpre : List.replicate (runAux a rest 0 (max cur best)) a <+: List.replicate cur a := by
            refine ⟨List.replicate (cur - runAux a rest 0 (max cur best)) a, ?_⟩
            rw [← List.replicate_add]
            congr 1
            omega
          exact hpre.isInfix.trans ⟨[], c :: rest, by simp⟩
        · left; exact hb
      · right
        simp only [List.replicate_zero, List.nil_append] at h
        have : rest <:+ List.replicate cur a ++ c :: rest :=
          (List.suffix_cons c rest).trans (List.suffix_append _ _)
        exact h.trans this.isInfix

theorem maxRun_le_of_within (a : Char) {l' l : List Char} (h : l' <:+: l) :
    maxRun a l' ≤ maxRun a l := by
  rcases maxRun_achieved a l' 0 0 with h0 | h0
  · unfold maxRun; omega
  · simp only [List.replicate_zero, List.nil_append] at h0
    exact replicate_inf_le a l _ (h0.trans h)

/-- the leading run of `a` at the front of `l` (length of `takeWhile`). -/
def leadCount (a : Char) : List Char → Nat
  | [] => 0
  | c :: rest => if c = a then leadCount a rest + 1 else 0

theorem leadCount_replicate_pref (a : Char) :
    ∀ l : List Char, List.replicate (leadCount a l) a <+: l := by
  intro l
  induction l with
  | nil => simp [leadCount]
  | cons c rest ih =>
    by_cases h : c = a
    · simp only [leadCount, if_pos h, List.replicate_succ]
      subst h
      obtain ⟨t, ht⟩ := ih
      exact ⟨t, by rw [List.cons_append, ht]⟩
    · simp [leadCount, if_neg h]

theorem leadCount_le_maxRun (a : Char) (l : List Char) : leadCount a l ≤ maxRun a l := by
  have := replicate_pref_le a (leadCount a l) l 0 0 (leadCount_replicate_pref a l)
  unfold maxRun
  omega

/-- Claim C1: for any code whose longest backtick run has length `k`, the block
fence has length `max 3 (k+1)` (so at least 3, and `k+1` whenever that is at
least 3), the inline fence has length exactly `k+1` (so at least 1), and
neither rendered fence occurs verbatim inside the text it fences. -/
theorem fence_safety (code text : List Char) :
    (makeFence code).length = max 3 (maxRun backtickChar code + 1) ∧
    3 ≤ (makeFence code).length ∧
    ¬ makeFence code <:+: code ∧
    (makeInlineFence text).length = maxRun backtickChar text + 1 ∧
    1 ≤ (makeInlineFence text).length ∧
    ¬ makeInlineFence text <:+: text := by
  refine ⟨by simp [makeFence], by simp [makeFence], ?_, by simp [makeInlineFence],
    by simp [makeInlineFence], ?_⟩
  · intro h
    have := replicate_inf_le backtickChar code _ h
    omega
  · intro h
    have := replicate_inf_le backtickChar text _ h
    omega

/-- the character class `[ \t]` used by `replace(/[ \t]+\n/g, "\n")`. -/
def isSpaceTab (c : Char) : Bool := c = ' ' || c = '\t'

/-- whitespace as trimmed by JavaScript `trim` and matched by `\s` (restricted
to the characters that occur in extracted text: space, tab, newline, carriage
return, vertical tab, form feed and no-break space). -/
def isJsWS (c : Char) : Bool :=
  c = ' ' || c = '\t' || c = '\n' || c = '\r' ||
    c = Char.ofNat 11 || c = Char.ofNat 12 || c = Char.ofNat 160

/-- Model of `text.replace(/\r\n/g, "\n")`: a left-to-right scan replacing each
(non-overlapping) `\r\n` pair by `\n`. -/
def replaceCRLF : List Char → List Char
  | [] => []
  | [c] => [c]
  | c :: d :: rest =>
    if c = '\r' ∧ d = '\n' then '\n' :: replaceCRLF rest
    else c :: replaceCRLF (d :: rest)

/-- Model of `text.replace(/\r/g, "\n")`. -/
def replaceCR (l : List Char) : List Char :=
  l.map fun c => if c = '\r' then '\n' else c

/-- Model of `text.replace(/p+\n/g, "\n")` for a one-character class `p`: every maximal
run of `p`-characters that is immediately followed by a newline is deleted
(the newline is kept).  Processing from the right, a `p`-character is dropped
exactly when the already-processed tail starts with `'\n'`. -/
def stripBeforeNL (p : Char → Bool) : List Char → List Char
  | [] => []
  | c :: rest =>
    if p c = true ∧ (stripBeforeNL p rest).head? = some '\n' then stripBeforeNL p rest
    else c :: stripBeforeNL p rest

/-- replacement text emitted for a completed newline run of length `run` by
`replace(/\n{thr,}/g, "\n".repeat(keep))`: runs of length at least `thr`
become exactly `keep` newlines, shorter runs are kept as they are. -/
def emitRun (thr keep run : Nat) : List Char :=
  if thr ≤ run then List.replicate keep '\n' else List.replicate run '\n'

/-- scan for `replace(/\n{thr,}/g, ...)`: `run` is the length of the newline
run read so far. -/
def collapseNLAux (thr keep : Nat) : List Char → Nat → List Char
  | [], run => emitRun thr keep run
  | c :: rest, run =>
    if c = '\n' then collapseNLAux thr keep rest (run + 1)
    else emitRun thr keep run ++ c :: collapseNLAux thr keep rest 0

/-- Model of `text.replace(/\n{thr,}/g, "\n".repeat(keep))` over maximal newline runs. -/
def collapseNL (thr keep : Nat) (l : List Char) : List Char :=
  collapseNLAux thr keep l 0

/-- drop JavaScript whitespace from the front (`trimStart`). -/
def ltrimChars (l : List Char) : List Char := l.dropWhile isJsWS

/-- drop JavaScript whitespace from the end (`trimEnd`). -/
def rtrimChars (l : List Char) : List Char := (l.reverse.dropWhile isJsWS).reverse

/-- JavaScript `String.prototype.trim`. -/
def trimChars (l : List Char) : List Char := rtrimChars (ltrimChars l)

/-- Model of `cleanupMarkdownInline` from the source:
`text.replace(/[ \t]+\n/g, "\n").replace(/\n{2,}/g, "\n")`. -/
def cleanupMarkdownInline (text : List Char) : List Char :=
  collapseNL 2 1 (stripBeforeNL isSpaceTab text)

/-- Model of `cleanupMarkdown` from the source:
`text.replace(/\r\n/g,"\n").replace(/\r/g,"\n").replace(/[ \t]+\n/g,"\n")
     .replace(/\n{3,}/g,"\n\n").trim()`. -/
def cleanupMarkdown (text : List Char) : List Char :=
  trimChars (collapseNL 3 2 (stripBeforeNL isSpaceTab (replaceCR (replaceCRLF text))))

theorem replicate_succ_append (a : Char) (n : Nat) (t : List Char) :
    List.replicate (n + 1) a ++ t = List.replicate n a ++ a :: t := by
  rw [List.replicate_succ']
  simp

theorem replaceCR_no_cr (l : List Char) : '\r' ∉ replaceCR l := by
  intro h
  rcases List.mem_map.mp h with ⟨c, _, hc⟩
  by_cases h' : c = '\r' <;> simp [h'] at hc

theorem replaceCRLF_id (l : List Char) (h : '\r' ∉ l) : replaceCRLF l = l := by
  induction l with
  | nil => rfl
  | cons c rest ih =>
    cases rest with
    | nil => rfl
    | cons d rest' =>
      have hc : c ≠ '\r' := fun hcr => h (by rw [hcr]; exact List.mem_cons_self _ _)
      rw [replaceCRLF, if_neg (fun hand => hc hand.1),
        ih (fun hm => h (List.mem_cons_of_mem c hm))]

theorem replaceCR_id (l : List Char) (h : '\r' ∉ l) : replaceCR l = l := by
  unfold replaceCR
  conv_rhs => rw [← List.map_id l]
  refine List.map_congr_left ?_
  intro c hc
  have hne : c ≠ '\r' := fun e => h (by rw [← e]; exact hc)
  simp [hne]

theorem stripBeforeNL_sub (p : Char → Bool) (l : List Char) :
    List.Sublist (stripBeforeNL p l) l := by
  induction l with
  | nil => simp [stripBeforeNL]
  | cons c rest ih =>
    rw [stripBeforeNL]
    split
    · exact ih.cons c
    · exact ih.cons₂ c

theorem stripBeforeNL_chain (l : List Char) :
    List.Chain' (fun a b => ¬(isSpaceTab a = true ∧ b = '\n'))
      (stripBeforeNL isSpaceTab l) := by
  induction l with
  | nil => simp [stripBeforeNL]
  | cons c rest ih =>
    by_cases h : isSpaceTab c = true ∧ (stripBeforeNL isSpaceTab rest).head? = some '\n'
    · rw [stripBeforeNL, if_pos h]
      exact ih
    · rw [stripBeforeNL, if_neg h]
      refine List.chain'_cons'.mpr ⟨?_, ih⟩
      rintro y hy ⟨hws, hnl⟩
      refine h ⟨hws, ?_⟩
      rw [hnl] at hy
      exact hy

theorem stripBeforeNL_id (l : List Char)
    (h : List.Chain' (fun a b => ¬(isSpaceTab a = true ∧ b = '\n')) l) :
    stripBeforeNL isSpaceTab l = l := by
  induction l with
  | nil => rfl
  | cons c rest ih =>
    have hrest : stripBeforeNL isSpaceTab rest = rest := ih (List.Chain'.tail h)
    have hcond : ¬(isSpaceTab c = true ∧ (stripBeforeNL isSpaceTab rest).head? = some '\n') := by
      rw [hrest]
      rintro ⟨hws, hnl⟩
      exact (List.chain'_cons'.mp h).1 '\n' hnl ⟨hws, rfl⟩
    rw [stripBeforeNL, if_neg hcond, hrest]

theorem chain_replicate_nl (m : Nat) :
    List.Chain' (fun a b => ¬(isSpaceTab a = true ∧ b = '\n')) (List.replicate m '\n') := by
  induction m with
  | zero => simp
  | succ m ih =>
    rw [List.replicate_succ]
    refine List.chain'_cons'.mpr ⟨?_, ih⟩
    rintro y hy ⟨hws, rfl⟩
    exact absurd hws (by decide)

theorem emitRun_zero (thr keep : Nat) (hthr : 1 ≤ thr) : emitRun thr keep 0 = [] := by
  unfold emitRun
  rw [if_neg (by omega)]
  rfl

theorem collapse_head_nl (thr keep : Nat) (hthr : 1 ≤ thr) (rest : List Char)
    (h : rest.head? ≠ some '\n') :
    (collapseNLAux thr keep rest 0).head? ≠ some '\n' := by
  cases rest with
  | nil =>
    rw [collapseNLAux, emitRun_zero thr keep hthr]
    simp
  | cons d r' =>
    have hd : d ≠ '\n' := by
      intro e
      exact h (by simp [e])
    rw [collapseNLAux, if_neg hd, emitRun_zero thr keep hthr]
    simp [hd]

theorem collapse_chain (thr keep : Nat) (hthr : 1 ≤ thr) (l : List Char) :
    ∀ run : Nat,
      List.Chain' (fun a b => ¬(isSpaceTab a = true ∧ b = '\n')) l →
      List.Chain' (fun a b => ¬(isSpaceTab a = true ∧ b = '\n'))
        (collapseNLAux thr keep l run) := by
  induction l with
  | nil =>
    intro run _
    rw [collapseNLAux]
    unfold emitRun
    split
    · exact chain_replicate_nl keep
    · exact chain_replicate_nl run
  | cons c rest ih =>
    intro run h
    by_cases hc : c = '\n'
    · rw [collapseNLAux, if_pos hc]
      exact ih (run + 1) (List.Chain'.tail h)
    · rw [collapseNLAux, if_neg hc]
      refine List.chain'_append.mpr ⟨?_, ?_, ?_⟩
      · unfold emitRun
        split
        · exact chain_replicate_nl keep
        · exact chain_replicate_nl run
      · refine List.chain'_cons'.mpr ⟨?_, ih 0 (List.Chain'.tail h)⟩
        rintro y hy ⟨hws, rfl⟩
        have hrest_head : rest.head? ≠ some '\n' := by
          intro hh
          exact (List.chain'_cons'.mp h).1 '\n' hh ⟨hws, rfl⟩
        exact collapse_head_nl thr keep hthr rest hrest_head hy
      · intro x hx y hy
        have hx' : x = '\n' := by
          have hmem : x ∈ emitRun thr keep run := List.mem_of_mem_getLast? hx
          unfold emitRun at hmem
          split at hmem <;> exact List.eq_of_mem_replicate hmem
        rw [hx']
        rintro ⟨hws, _⟩
        exact absurd hws (by decide)

theorem maxRun_cons_ne (a c : Char) (rest : List Char) (hc : c ≠ a) :
    maxRun a (c :: rest) = maxRun a rest := by
  unfold maxRun
  simp [runAux, hc]

theorem maxRun_cons_self_le (a : Char) (rest : List Char) :
    maxRun a rest ≤ maxRun a (a :: rest) := by
  unfold maxRun
  simp only [runAux, if_pos rfl]
  have : runAux a rest 0 0 ≤ runAux a rest 1 0 := runAux_mono a rest (by omega) (le_refl 0)
  simpa using this

theorem collapse_maxRun_lt (thr keep : Nat) (hk : keep < thr) (l : List Char) :
    ∀ run : Nat, maxRun '\n' (collapseNLAux thr keep l run) < thr := by
  induction l with
  | nil =>
    intro run
    rw [collapseNLAux]
    unfold emitRun
    split <;> rw [maxRun_replicate] <;> omega
  | cons c rest ih =>
    intro run
    by_cases hc : c = '\n'
    · rw [collapseNLAux, if_pos hc]
      exact ih (run + 1)
    · rw [collapseNLAux, if_neg hc]
      have hr' : ∃ r', emitRun thr keep run = List.replicate r' '\n' ∧ r' < thr := by
        unfold emitRun
        split
        · exact ⟨keep, rfl, hk⟩
        · exact ⟨run, rfl, by omega⟩
      obtain ⟨r', her, hrlt⟩ := hr'
      rw [her]
      unfold maxRun
      rw [runAux_replicate_append]
      have hstep : runAux '\n' (c :: collapseNLAux thr keep rest 0) (0 + r') 0 =
          runAux '\n' (collapseNLAux thr keep rest 0) 0 (max (0 + r') 0) := by
        simp [runAux, hc]
      rw [hstep, runAux_eq_max_best]
      have := ih 0
      unfold maxRun at this
      omega

theorem collapseNLAux_id (thr keep : Nat) (l : List Char) :
    ∀ run : Nat, maxRun '\n' l < thr → run + leadCount '\n' l < thr →
      collapseNLAux thr keep l run = List.replicate run '\n' ++ l := by
  induction l with
  | nil =>
    intro run _ h2
    simp only [leadCount] at h2
    rw [collapseNLAux]
    unfold emitRun
    rw [if_neg (by omega)]
    simp
  | cons c rest ih =>
    intro run h1 h2
    by_cases hc : c = '\n'
    · rw [collapseNLAux, if_pos hc]
      have hlead : leadCount '\n' (c :: rest) = leadCount '\n' rest + 1 := by
        simp [leadCount, hc]
      have hmax : maxRun '\n' rest ≤ maxRun '\n' (c :: rest) := by
        rw [hc]
        exact maxRun_cons_self_le '\n' rest
      rw [hlead] at h2
      rw [ih (run + 1) (by omega) (by omega), hc, replicate_succ_append]
    · rw [collapseNLAux, if_neg hc]
      have hlead0 : leadCount '\n' (c :: rest) = 0 := by simp [leadCount, hc]
      rw [hlead0] at h2
      have hemit : emitRun thr keep run = List.replicate run '\n' := by
        unfold emitRun
        rw [if_neg (by omega)]
      have hmaxrest : maxRun '\n' rest < thr := by
        rw [← maxRun_cons_ne '\n' c rest hc]
        exact h1
      have hleadrest : leadCount '\n' rest < thr :=
        lt_of_le_of_lt (leadCount_le_maxRun '\n' rest) hmaxrest
      rw [ih 0 hmaxrest (by omega), hemit]
      simp

theorem collapseNL_id (thr keep : Nat) (l : List Char) (h : maxRun '\n' l < thr) :
    collapseNL thr keep l = l := by
  unfold collapseNL
  have hl : leadCount '\n' l ≤ maxRun '\n' l := leadCount_le_maxRun _ _
  rw [collapseNLAux_id thr keep l 0 h (by omega)]
  simp

theorem collapse_no_cr (thr keep : Nat) (l : List Char) (h : '\r' ∉ l) :
    ∀ run : Nat, '\r' ∉ collapseNLAux thr keep l run := by
  induction l with
  | nil =>
    intro run hm
    rw [collapseNLAux] at hm
    unfold emitRun at hm
    split at hm <;> exact absurd (List.eq_of_mem_replicate hm) (by decide)
  | cons c rest ih =>
    intro run hm
    have hrest : '\r' ∉ rest := fun hr => h (List.mem_cons_of_mem c hr)
    by_cases hc : c = '\n'
    · rw [collapseNLAux, if_pos hc] at hm
      exact ih hrest (run + 1) hm
    · rw [collapseNLAux, if_neg hc] at hm
      rcases List.mem_append.mp hm with hm | hm
      · unfold emitRun at hm
        split at hm <;> exact absurd (List.eq_of_mem_replicate hm) (by decide)
      · rcases List.mem_cons.mp hm with hm | hm
        · exact h (by rw [hm]; exact List.mem_cons_self _ _)
        · exact ih hrest 0 hm

theorem dropWhile_head_false (p : Char → Bool) (l : List Char) :
    ∀ c t, l.dropWhile p = c :: t → p c = false := by
  induction l with
  | nil => intro c t h; simp at h
  | cons d rest ih =>
    intro c t h
    rw [List.dropWhile_cons] at h
    by_cases hp : p d = true
    · rw [if_pos hp] at h
      exact ih c t h
    · rw [if_neg hp] at h
      injection h with h1 _
      rw [← h1]
      exact Bool.eq_false_iff.mpr hp

theorem dropWhile_dropWhile (p : Char → Bool) (l : List Char) :
    (l.dropWhile p).dropWhile p = l.dropWhile p := by
  cases hdw : l.dropWhile p with
  | nil => simp
  | cons c t =>
    have := dropWhile_head_false p l c t hdw
    simp [List.dropWhile_cons, this]

theorem dropWhile_suff (p : Char → Bool) (l : List Char) : l.dropWhile p <:+ l := by
  induction l with
  | nil => simp
  | cons c rest ih =>
    rw [List.dropWhile_cons]
    split
    · exact ih.trans (List.suffix_cons c rest)
    · exact List.suffix_refl _

theorem rtrim_pref (l : List Char) : rtrimChars l <+: l := by
  unfold rtrimChars
  conv_rhs => rw [← List.reverse_reverse l]
  exact List.reverse_prefix.mpr (dropWhile_suff isJsWS l.reverse)

theorem rtrim_idem (l : List Char) : rtrimChars (rtrimChars l) = rtrimChars l := by
  unfold rtrimChars
  rw [List.reverse_reverse, dropWhile_dropWhile]

theorem ltrim_of_pref (l : List Char) (h : ltrimChars l = l) :
    ∀ Y : List Char, Y <+: l → ltrimChars Y = Y := by
  intro Y hY
  cases Y with
  | nil => rfl
  | cons y t =>
    obtain ⟨s, hs⟩ := hY
    have hpy : isJsWS y = false := by
      unfold ltrimChars at h
      rw [← hs, List.cons_append] at h
      refine dropWhile_head_false isJsWS (y :: (t ++ s)) y (t ++ s) ?_
      exact h
    unfold ltrimChars
    simp [List.dropWhile_cons, hpy]

theorem trim_idem (l : List Char) : trimChars (trimChars l) = trimChars l := by
  unfold trimChars
  have h1 : ltrimChars (ltrimChars l) = ltrimChars l := dropWhile_dropWhile _ _
  have h2 : ltrimChars (rtrimChars (ltrimChars l)) = rtrimChars (ltrimChars l) :=
    ltrim_of_pref (ltrimChars l) h1 _ (rtrim_pref _)
  rw [h2, rtrim_idem]

theorem trim_within (l : List Char) : trimChars l <:+: l := by
  unfold trimChars
  exact (rtrim_pref (ltrimChars l)).isInfix.trans (dropWhile_suff isJsWS l).isInfix

theorem chain_of_within {R : Char → Char → Prop} {l' l : List Char}
    (h : List.Chain' R l) (hw : l' <:+: l) : List.Chain' R l' :=
  List.Chain'.infix h hw

theorem not_mem_of_within {x : Char} {l' l : List Char} (hw : l' <:+: l) (h : x ∉ l) :
    x ∉ l' :=
  fun hm => h (hw.sublist.subset hm)

/-- A normalised string is a fixed point of the full normalisation pass. -/
theorem cleanupMarkdown_fixed (o : List Char)
    (h1 : '\r' ∉ o)
    (h2 : List.Chain' (fun a b => ¬(isSpaceTab a = true ∧ b = '\n')) o)
    (h3 : maxRun '\n' o < 3)
    (h4 : trimChars o = o) :
    cleanupMarkdown o = o := by
  unfold cleanupMarkdown
  rw [replaceCRLF_id o h1, replaceCR_id o h1, stripBeforeNL_id o h2,
    collapseNL_id 3 2 o h3, h4]

/-- A normalised inline string is a fixed point of the inline pass. -/
theorem cleanupMarkdownInline_fixed (o : List Char)
    (h2 : List.Chain' (fun a b => ¬(isSpaceTab a = true ∧ b = '\n')) o)
    (h3 : maxRun '\n' o < 2) :
    cleanupMarkdownInline o = o := by
  unfold cleanupMarkdownInline
  rw [stripBeforeNL_id o h2, collapseNL_id 2 1 o h3]

/-- Claim C2: the whitespace-normalisation passes are idempotent — for every
string `s`, `cleanupMarkdown (cleanupMarkdown s) = cleanupMarkdown s`, and
likewise for the inline pass `cleanupMarkdownInline`. -/
theorem cleanup_idempotent (s : List Char) :
    cleanupMarkdown (cleanupMarkdown s) = cleanupMarkdown s ∧
    cleanupMarkdownInline (cleanupMarkdownInline s) = cleanupMarkdownInline s := by
  constructor
  · set Z := replaceCR (replaceCRLF s) with hZ
    set Y := stripBeforeNL isSpaceTab Z with hY
    set X := collapseNL 3 2 Y with hX
    have hox : cleanupMarkdown s = trimChars X := rfl
    have hcrZ : '\r' ∉ Z := replaceCR_no_cr _
    have hcrY : '\r' ∉ Y := fun hm => hcrZ ((stripBeforeNL_sub isSpaceTab Z).subset hm)
    have hcrX : '\r' ∉ X := collapse_no_cr 3 2 Y hcrY 0
    have hchY : List.Chain' (fun a b => ¬(isSpaceTab a = true ∧ b = '\n')) Y :=
      stripBeforeNL_chain Z
    have hchX : List.Chain' (fun a b => ¬(isSpaceTab a = true ∧ b = '\n')) X :=
      collapse_chain 3 2 (by omega) Y 0 hchY
    have hmX : maxRun '\n' X < 3 := collapse_maxRun_lt 3 2 (by omega) Y 0
    rw [hox]
    exact cleanupMarkdown_fixed (trimChars X)
      (not_mem_of_within (trim_within X) hcrX)
      (chain_of_within hchX (trim_within X))
      (lt_of_le_of_lt (maxRun_le_of_within '\n' (trim_within X)) hmX)
      (trim_idem X)
  · set Y := stripBeforeNL isSpaceTab s with hY
    have ho : cleanupMarkdownInline s = collapseNL 2 1 Y := rfl
    have hchY : List.Chain' (fun a b => ¬(isSpaceTab a = true ∧ b = '\n')) Y :=
      stripBeforeNL_chain s
    rw [ho]
    exact cleanupMarkdownInline_fixed (collapseNL 2 1 Y)
      (collapse_chain 2 1 (by omega) Y 0 hchY)
      (collapse_maxRun_lt 2 1 (by omega) Y 0)

/-- speaker roles distinguished by `getSpeaker` (the classifier returns the
label `"User"` for user turns and `"Gemini"` otherwise). -/
inductive Speaker : Type where
  | user : Speaker
  | assistant : Speaker

/-- the heading label `getSpeaker` produces for each role. -/
def speakerLabel : Speaker → List Char
  | .user => "User".data
  | .assistant => "Gemini".data

/-- the lines pushed for one conversation turn by the main loop of
`extractMarkdownFromPage`: `## <speaker>`, the rendered body, then
`"", "---", ""`; a turn whose rendered body is empty is skipped. -/
def turnBlock (speaker : Speaker) (markdown : List Char) : List (List Char) :=
  if markdown = [] then []
  else ["## ".data ++ speakerLabel speaker, markdown, [], "---".data, []]

/-- the assembly done by `extractMarkdownFromPage` (Canvas extraction off):
`# <title>`, a blank line, one block per turn, joined with `"\n"` and passed
through `cleanupMarkdown`.  The per-turn rendered bodies (the trimmed result
of `htmlToMarkdown`) are taken as inputs. -/
def extractMarkdownFromPage (title : List Char) (turns : List (Speaker × List Char)) :
    List Char :=
  cleanupMarkdown (List.intercalate ['\n']
    (("# ".data ++ title) :: [] :: (turns.map fun t => turnBlock t.1 t.2).flatten))

/-- Claim C3: for a conversation with exactly one user turn rendering to
`Hello` and one assistant turn rendering to `Hi there`, in that order, the
extraction returns exactly `# <title>`, a blank line, `## User`, `Hello`,
blank, `---`, blank, `## Gemini`, `Hi there`, blank, `---`, with the final
trailing newline trimmed by normalisation. -/
theorem extract_scenario_hello :
    extractMarkdownFromPage "My Thread".data
      [(Speaker.user, "Hello".data), (Speaker.assistant, "Hi there".data)] =
    "# My Thread\n\n## User\nHello\n\n---\n\n## Gemini\nHi there\n\n---".data := by
  decide

/-- outcome of processing one title in the per-artifact loop of
`extractAllCanvasContent` (the live-page effects consulted in one iteration):
`listGone` — `ensureFileListVisible` before the click fails (loop break);
`clickFail` — `openFileByTitle` returns false (skip, continue);
`raised` — an exception inside the per-title `try` (caught, warn, continue);
`pollFail restored` — the bounded content poll returns null, with `restored`
the result of the trailing `ensureFileListVisible`;
`pollOk c restored` — the poll yields content `c`, likewise. -/
inductive TitleOutcome : Type where
  | listGone : TitleOutcome
  | clickFail : TitleOutcome
  | raised : TitleOutcome
  | phaseRaised : TitleOutcome
  | pollFail : Bool → TitleOutcome
  | pollOk : List Char → Bool → TitleOutcome

/-- the per-title loop of `extractAllCanvasContent` (step 6 of the
orchestration): walks the enumerated titles, keeping the already-processed
title set, the `everOpenedEditor` flag, and the accumulated results.
`phaseRaised` models an exception escaping the per-title `try` (it ends the
loop; the surrounding `catch` swallows it and the accumulated results are
returned). -/
def processCanvasTitles (outcome : List Char → TitleOutcome) :
    List (List Char) → List (List Char) → Bool → List (List Char) → List (List Char)
  | [], _, _, results => results
  | t :: rest, processed, ever, results =>
    match outcome t with
    | .listGone => results
    | .phaseRaised => results
    | .clickFail =>
      if t ∈ processed then processCanvasTitles outcome rest processed ever results
      else processCanvasTitles outcome rest processed ever results
    | .raised => processCanvasTitles outcome rest processed ever results
    | .pollFail restored =>
      if t ∈ processed then processCanvasTitles outcome rest processed ever results
      else if ever then
        if restored then processCanvasTitles outcome rest processed ever results
        else results
      else results
    | .pollOk c restored =>
      if t ∈ processed then processCanvasTitles outcome rest processed ever results
      else if restored then
        processCanvasTitles outcome rest (t :: processed) true (results ++ [c])
      else results ++ [c]

/-- Model of `extractAllCanvasContent`: the initial opportunistic read supplies
`initResults` / `initProcessed`, the loop starts with `everOpenedEditor`
false, and the `finally` clause invokes `restoreUiState` exactly once on
every path; the second component counts those invocations. -/
def extractAllCanvasContent (outcome : List Char → TitleOutcome)
    (initResults initProcessed : List (List Char)) (titles : List (List Char)) :
    List (List Char) × Nat :=
  (processCanvasTitles outcome titles initProcessed false initResults, 1)

/-- Claim C4: a failed content poll is not fatal when some artifact has
already been opened in this run — the title is skipped and the loop continues
with the remaining titles — but if no artifact has ever been opened
(`everOpenedEditor` still false, i.e. the first attempted artifact fails),
the whole loop aborts and no further titles are attempted. -/
theorem canvas_poll_failure_policy (outcome : List Char → TitleOutcome)
    (t : List Char) (rest processed results : List (List Char))
    (hout : outcome t = TitleOutcome.pollFail true) (hproc : t ∉ processed) :
    processCanvasTitles outcome (t :: rest) processed true results =
      processCanvasTitles outcome rest processed true results ∧
    processCanvasTitles outcome (t :: rest) processed false results = results := by
  constructor
  · rw [processCanvasTitles, hout]
    simp [hproc]
  · rw [processCanvasTitles, hout]
    simp [hproc]

theorem canvas_poll_failure_policy_witness :
    processCanvasTitles (fun _ => TitleOutcome.pollFail true)
      ["a".data, "b".data] [] true [] =
      processCanvasTitles (fun _ => TitleOutcome.pollFail true) ["b".data] [] true [] ∧
    processCanvasTitles (fun _ => TitleOutcome.pollFail true)
      ["a".data, "b".data] [] false [] = [] :=
  canvas_poll_failure_policy (fun _ => TitleOutcome.pollFail true)
    "a".data ["b".data] [] [] rfl (by decide)

theorem processCanvasTitles_results_pref (outcome : List Char → TitleOutcome) :
    ∀ (titles processed : List (List Char)) (ever : Bool) (results : List (List Char)),
      results <+: processCanvasTitles outcome titles processed ever results := by
  intro titles
  induction titles with
  | nil => intro processed ever results; exact List.prefix_refl _
  | cons t rest ih =>
    intro processed ever results
    cases houtcome : outcome t with
    | listGone =>
      simp only [processCanvasTitles, houtcome]
      exact List.prefix_refl _
    | phaseRaised =>
      simp only [processCanvasTitles, houtcome]
      exact List.prefix_refl _
    | clickFail =>
      simp only [processCanvasTitles, houtcome]
      split <;> exact ih _ _ _
    | raised =>
      simp only [processCanvasTitles, houtcome]
      exact ih _ _ _
    | pollFail restored =>
      simp only [processCanvasTitles, houtcome]
      split
      · exact ih _ _ _
      · split
        · split
          · exact ih _ _ _
          · exact List.prefix_refl _
        · exact List.prefix_refl _
    | pollOk c restored =>
      simp only [processCanvasTitles, houtcome]
      split
      · exact ih _ _ _
      · split
        · exact (List.prefix_append results [c]).trans (ih _ _ _)
        · exact List.prefix_append results [c]

/-- Claim C8: however the per-artifact loop terminates (normal completion,
`listGone` / first-failure abort, or an exception), `restoreUiState` runs
exactly once per call (the `finally` clause), and every artifact appended
before termination is still contained in the returned sequence: the results
accumulated at any point of the loop are a prefix of what the call returns. -/
theorem canvas_restore_once_results_kept (outcome : List Char → TitleOutcome)
    (initResults initProcessed : List (List Char)) (titles : List (List Char))
    (processed results : List (List Char)) (ever : Bool) :
    (extractAllCanvasContent outcome initResults initProcessed titles).2 = 1 ∧
    (extractAllCanvasContent outcome initResults initProcessed titles).1 =
      processCanvasTitles outcome titles initProcessed false initResults ∧
    results <+: processCanvasTitles outcome titles processed ever results :=
  ⟨rfl, rfl, processCanvasTitles_results_pref outcome titles processed ever results⟩

/-- Model of `waitFor(fn, {timeout, interval})`: `polls` is the finite sequence of
outcomes of evaluating `fn` at the successive poll instants inside the
timeout window — `.error e` models a throw of the condition, `.ok none` a
falsy value, `.ok (some v)` a truthy value.  The poller returns the first
truthy value, treats a throw like a falsy value (the `catch` block is empty),
and returns `null` (here `none`) when the window is exhausted; it itself is a
total function and never re-raises. -/
def waitFor {α : Type} : List (Except Unit (Option α)) → Option α
  | [] => none
  | Except.error _ :: rest => waitFor rest
  | Except.ok none :: rest => waitFor rest
  | Except.ok (some v) :: _ => some v

/-- Claim C6: `waitFor` repeatedly evaluates the condition until it yields a
truthy value and returns that value; an exception in a single poll is
swallowed and treated exactly like "not yet ready"; and if no poll in the
window is truthy it returns `null` — it never escalates an error. -/
theorem waitFor_contract {α : Type} (polls rest : List (Except Unit (Option α)))
    (e : Unit) (v : α) :
    waitFor (Except.error e :: rest) = waitFor rest ∧
    waitFor (Except.ok none :: rest) = waitFor rest ∧
    waitFor (Except.ok (some v) :: rest) = some v ∧
    ((∀ p ∈ polls, ∀ w : α, p ≠ Except.ok (some w)) → waitFor polls = none) := by
  refine ⟨rfl, rfl, rfl, ?_⟩
  intro h
  induction polls with
  | nil => rfl
  | cons p ps ih =>
    have hps : ∀ q ∈ ps, ∀ w : α, q ≠ Except.ok (some w) :=
      fun q hq => h q (List.mem_cons_of_mem p hq)
    match p with
    | Except.error _ => exact ih hps
    | Except.ok none => exact ih hps
    | Except.ok (some w) => exact absurd rfl (h _ (List.mem_cons_self _ _) w)

theorem waitFor_contract_witness :
    waitFor (α := Nat) [Except.error (), Except.ok none] = none :=
  (waitFor_contract (α := Nat) [Except.error (), Except.ok none] [] () 0).2.2.2
    (by intro p hp w; fin_cases hp <;> simp)

/-- result of one call to `restoreUiState`: either the whole body ran, or
some step raised and the exception was caught and logged by the trailing
`catch` block. -/
inductive RestoreResult : Type where
  | completed : RestoreResult
  | loggedWarning : List Char → RestoreResult

/-- sequencing of the restoration steps inside the `try` of
`restoreUiState`: the first raising step aborts the remainder of the body
with its exception. -/
def runRestoreSteps : List (Except (List Char) Unit) → Except (List Char) Unit
  | [] => Except.ok ()
  | Except.ok _ :: rest => runRestoreSteps rest
  | Except.error e :: _ => Except.error e

/-- Model of `restoreUiState(root, state)`: the whole body is wrapped in
`try ... catch (e) { console.warn(...) }`, so an exception from any step is
converted into a logged warning; the function's returned value is always an
`ok`, never a propagated error.  `steps` models the effectful restoration
steps the body performs for the given snapshot. -/
def restoreUiState (steps : List (Except (List Char) Unit)) :
    Except (List Char) RestoreResult :=
  match runRestoreSteps steps with
  | Except.ok _ => Except.ok RestoreResult.completed
  | Except.error e => Except.ok (RestoreResult.loggedWarning e)

/-- Claim C7: `restoreUiState` never propagates a failure: for every snapshot
(i.e. every sequence of restoration steps, however many of them raise), the
call returns normally — an `ok` value — and a step that raises after any
prefix of successful steps yields only a logged warning. -/
theorem restore_never_raises (steps pre rest : List (Except (List Char) Unit))
    (e : List Char) :
    (∃ r : RestoreResult, restoreUiState steps = Except.ok r) ∧
    (∀ msg : List Char, restoreUiState steps ≠ Except.error msg) ∧
    ((∀ s ∈ pre, s = Except.ok ()) →
      restoreUiState (pre ++ Except.error e :: rest) =
        Except.ok (RestoreResult.loggedWarning e)) := by
  refine ⟨?_, ?_, ?_⟩
  · unfold restoreUiState
    match runRestoreSteps steps with
    | Except.ok _ => exact ⟨RestoreResult.completed, rfl⟩
    | Except.error msg => exact ⟨RestoreResult.loggedWarning msg, rfl⟩
  · intro msg
    unfold restoreUiState
    match runRestoreSteps steps with
    | Except.ok _ => simp
    | Except.error m => simp
  · intro hpre
    have hrun : runRestoreSteps (pre ++ Except.error e :: rest) = Except.error e := by
      induction pre with
      | nil => rfl
      | cons s ps ih =>
        have hs : s = Except.ok () := hpre s (List.mem_cons_self _ _)
        rw [hs, List.cons_append, runRestoreSteps]
        exact ih (fun q hq => hpre q (List.mem_cons_of_mem s hq))
    unfold restoreUiState
    rw [hrun]

theorem restore_never_raises_witness :
    restoreUiState [Except.ok (), Except.error "boom".data, Except.ok ()] =
      Except.ok (RestoreResult.loggedWarning "boom".data) :=
  (restore_never_raises [] [Except.ok ()] [Except.ok ()] "boom".data).2.2
    (by intro s hs; fin_cases hs; rfl)

/-- Model of `toAbsoluteUrl(href)`: `new URL(href, location.href)` is a browser
built-in, modelled as an abstract fallible parser `parseUrl`; the `try`
returns its result, and the `catch` returns the original `href` unchanged. -/
def toAbsoluteUrl (parseUrl : List Char → Except Unit (List Char))
    (href : List Char) : List Char :=
  match parseUrl href with
  | Except.ok u => u
  | Except.error _ => href

/-- Claim C10: URL absolutisation is total — for every `href`, including ones
the URL constructor rejects, `toAbsoluteUrl` returns a string and never
raises: on parser failure it returns the original `href` unchanged, and on
success it returns the resolved URL. -/
theorem toAbsoluteUrl_total (parseUrl : List Char → Except Unit (List Char))
    (href u : List Char) :
    (parseUrl href = Except.error () → toAbsoluteUrl parseUrl href = href) ∧
    (parseUrl href = Except.ok u → toAbsoluteUrl parseUrl href = u) := by
  constructor
  · intro h
    unfold toAbsoluteUrl
    rw [h]
  · intro h
    unfold toAbsoluteUrl
    rw [h]

theorem toAbsoluteUrl_total_witness :
    toAbsoluteUrl (fun _ => Except.error ()) "::bad::".data = "::bad::".data ∧
    toAbsoluteUrl (fun h => Except.ok ("https://x/".data ++ h)) "a".data =
      "https://x/a".data :=
  ⟨(toAbsoluteUrl_total (fun _ => Except.error ()) "::bad::".data []).1 rfl,
    (toAbsoluteUrl_total (fun h => Except.ok ("https://x/".data ++ h)) "a".data
      "https://x/a".data).2 rfl⟩

/-- A DOM node, identified by its tree path (child indices from the root).
`A.contains(B)` is path-prefix (inclusive of `A` itself), and document
(pre-)order is the lexicographic order on paths — the `LinearOrder` that
Mathlib puts on `List Nat` — which is what `compareDocumentPosition`'s
FOLLOWING / PRECEDING bits report for nodes of one tree. -/
abbrev DomPath := List Nat

/-- Model of `uniqueElements` from `collectConversationNodes`: deduplicate by node
identity, keeping first occurrences in order. -/
def uniqueElements : List DomPath → List DomPath
  | [] => []
  | x :: rest => x :: (uniqueElements rest).filter (fun y => y ≠ x)

/-- the loop of `removeContainedElements`: an element is appended to `out`
unless some previously kept element contains it. -/
def removeContainedAux : List DomPath → List DomPath → List DomPath
  | out, [] => out
  | out, el :: rest =>
    if out.any (fun prev => List.isPrefixOf prev el) then removeContainedAux out rest
    else removeContainedAux (out ++ [el]) rest

/-- Model of `removeContainedElements` from the source. -/
def removeContainedElements (l : List DomPath) : List DomPath := removeContainedAux [] l

/-- the pipeline of `collectConversationNodes` on the matched candidates:
deduplicate, sort by document order (`compareDomOrder`; on pairwise-distinct
nodes any comparison sort returns the unique ordered permutation, modelled
here by insertion sort), then drop contained elements. -/
def collectConversationNodes (candidates : List DomPath) : List DomPath :=
  removeContainedElements (List.insertionSort (· ≤ ·) (uniqueElements candidates))

theorem mem_uniqueElements (l : List DomPath) (x : DomPath) :
    x ∈ uniqueElements l ↔ x ∈ l := by
  induction l with
  | nil => simp [uniqueElements]
  | cons a rest ih =>
    by_cases hx : x = a
    · simp [uniqueElements, hx]
    · simp [uniqueElements, List.mem_filter, hx, ih]

theorem nodup_uniqueElements (l : List DomPath) : (uniqueElements l).Nodup := by
  induction l with
  | nil => simp [uniqueElements]
  | cons a rest ih =>
    rw [uniqueElements]
    refine List.Nodup.cons ?_ (List.Nodup.filter _ ih)
    intro hmem
    have := (List.mem_filter.mp hmem).2
    simp at this

theorem pref_lt {a b : DomPath} (h : a <+: b) (hne : a ≠ b) : a < b := by
  show List.Lex (· < ·) a b
  induction a generalizing b with
  | nil =>
    cases b with
    | nil => exact absurd rfl hne
    | cons y t => exact List.Lex.nil
  | cons x s ih =>
    obtain ⟨t, ht⟩ := h
    cases b with
    | nil => simp at ht
    | cons y u =>
      rw [List.cons_append] at ht
      injection ht with h1 h2
      subst h1
      refine List.Lex.cons (ih ⟨t, h2⟩ ?_)
      intro he
      exact hne (by rw [he])

theorem removeContainedAux_decomp :
    ∀ (rest out : List DomPath),
      ∃ sub : List DomPath,
        removeContainedAux out rest = out ++ sub ∧ List.Sublist sub rest := by
  intro rest
  induction rest with
  | nil =>
    intro out
    exact ⟨[], by simp [removeContainedAux], List.nil_sublist _⟩
  | cons el rest' ih =>
    intro out
    by_cases hany : out.any (fun prev => List.isPrefixOf prev el) = true
    · obtain ⟨sub, h1, h2⟩ := ih out
      exact ⟨sub, by rw [removeContainedAux, if_pos hany]; exact h1, h2.cons el⟩
    · obtain ⟨sub, h1, h2⟩ := ih (out ++ [el])
      refine ⟨el :: sub, ?_, h2.cons₂ el⟩
      rw [removeContainedAux, if_neg hany, h1]
      simp

theorem removeContainedAux_keeps :
    ∀ (rest out : List DomPath), out <+: removeContainedAux out rest := by
  intro rest
  induction rest with
  | nil => intro out; rw [removeContainedAux]
  | cons el rest' ih =>
    intro out
    by_cases hany : out.any (fun prev => List.isPrefixOf prev el) = true
    · rw [removeContainedAux, if_pos hany]
      exact ih out
    · rw [removeContainedAux, if_neg hany]
      exact (List.prefix_append out [el]).trans (ih (out ++ [el]))

theorem removeContainedAux_pairwise :
    ∀ (rest out : List DomPath),
      List.Pairwise (· < ·) (out ++ rest) →
      List.Pairwise (fun a b => ¬ a <+: b ∧ ¬ b <+: a) out →
      List.Pairwise (fun a b => ¬ a <+: b ∧ ¬ b <+: a) (removeContainedAux out rest) := by
  intro rest
  induction rest with
  | nil =>
    intro out _ h2
    rw [removeContainedAux]
    exact h2
  | cons el rest' ih =>
    intro out h1 h2
    by_cases hany : out.any (fun prev => List.isPrefixOf prev el) = true
    · rw [removeContainedAux, if_pos hany]
      refine ih out (List.Pairwise.sublist ?_ h1) h2
      exact List.Sublist.append_left (List.sublist_cons_self el rest') out
    · rw [removeContainedAux, if_neg hany]
      have hnotpre : ∀ prev ∈ out, ¬ prev <+: el := by
        intro prev hp hpre
        refine hany (List.any_eq_true.mpr ⟨prev, hp, ?_⟩)
        exact List.isPrefixOf_iff_prefix.mpr hpre
      have hlt : ∀ prev ∈ out, prev < el := by
        intro prev hp
        exact (List.pairwise_append.mp h1).2.2 prev hp el (List.mem_cons_self _ _)
      have hout1 : List.Pairwise (fun a b => ¬ a <+: b ∧ ¬ b <+: a) (out ++ [el]) := by
        rw [List.pairwise_append]
        refine ⟨h2, List.pairwise_singleton _ _, ?_⟩
        intro x hx y hy
        rw [List.mem_singleton.mp hy]
        refine ⟨hnotpre x hx, ?_⟩
        intro hpe
        have hne : el ≠ x := by
          intro he
          exact hnotpre x hx (he ▸ List.prefix_refl el)
        exact absurd (hlt x hx) (lt_asymm (pref_lt hpe hne))
      refine ih (out ++ [el]) ?_ hout1
      rw [List.append_assoc]
      simpa using h1

theorem removeContainedAux_mem_max :
    ∀ (rest out : List DomPath) (A : DomPath),
      (A ∈ out ∨ A ∈ rest) →
      (out ++ rest).Nodup →
      (∀ C : DomPath, (C ∈ out ∨ C ∈ rest) → C ≠ A → ¬ C <+: A) →
      A ∈ removeContainedAux out rest := by
  intro rest
  induction rest with
  | nil =>
    intro out A hA _ _
    rw [removeContainedAux]
    rcases hA with h | h
    · exact h
    · simp at h
  | cons el rest' ih =>
    intro out A hA hnd hmax
    by_cases hany : out.any (fun prev => List.isPrefixOf prev el) = true
    · rw [removeContainedAux, if_pos hany]
      obtain ⟨prev, hprev, hpre⟩ := List.any_eq_true.mp hany
      rw [List.isPrefixOf_iff_prefix] at hpre
      have hAne : A ≠ el := by
        intro he
        subst he
        refine hmax prev (Or.inl hprev) ?_ hpre
        intro hpA
        exact List.disjoint_of_nodup_append hnd hprev
          (by rw [hpA]; exact List.mem_cons_self _ _)
      refine ih out A ?_ ?_ ?_
      · rcases hA with h | h
        · exact Or.inl h
        · rcases List.mem_cons.mp h with h | h
          · exact absurd h hAne
          · exact Or.inr h
      · refine List.Nodup.sublist ?_ hnd
        exact List.Sublist.append_left (List.sublist_cons_self el rest') out
      · intro C hC hCA
        refine hmax C ?_ hCA
        rcases hC with h | h
        · exact Or.inl h
        · exact Or.inr (List.mem_cons_of_mem _ h)
    · rw [removeContainedAux, if_neg hany]
      refine ih (out ++ [el]) A ?_ ?_ ?_
      · rcases hA with h | h
        · exact Or.inl (List.mem_append_left _ h)
        · rcases List.mem_cons.mp h with h | h
          · exact Or.inl (List.mem_append_right _ (by rw [h]; exact List.mem_singleton_self _))
          · exact Or.inr h
      · have heq : (out ++ [el]) ++ rest' = out ++ el :: rest' := by simp
        rw [heq]
        exact hnd
      · intro C hC hCA
        refine hmax C ?_ hCA
        rcases hC with h | h
        · rcases List.mem_append.mp h with h | h
          · exact Or.inl h
          · exact Or.inr (List.mem_cons.mpr (Or.inl (List.mem_singleton.mp h)))
        · exact Or.inr (List.mem_cons_of_mem _ h)

theorem sortedUnique_nodup (candidates : List DomPath) :
    (List.insertionSort (· ≤ ·) (uniqueElements candidates)).Nodup :=
  ((List.perm_insertionSort (· ≤ ·) (uniqueElements candidates)).nodup_iff).mpr
    (nodup_uniqueElements candidates)

theorem sortedUnique_lt (candidates : List DomPath) :
    List.Pairwise (· < ·) (List.insertionSort (· ≤ ·) (uniqueElements candidates)) :=
  List.Sorted.lt_of_le (List.sorted_insertionSort (· ≤ ·) _) (sortedUnique_nodup candidates)

theorem mem_sortedUnique (candidates : List DomPath) (x : DomPath) :
    x ∈ List.insertionSort (· ≤ ·) (uniqueElements candidates) ↔ x ∈ candidates := by
  rw [(List.perm_insertionSort (· ≤ ·) (uniqueElements candidates)).mem_iff]
  exact mem_uniqueElements candidates x

theorem collect_sorted (candidates : List DomPath) :
    List.Pairwise (· < ·) (collectConversationNodes candidates) := by
  obtain ⟨sub, h1, h2⟩ :=
    removeContainedAux_decomp (List.insertionSort (· ≤ ·) (uniqueElements candidates)) []
  unfold collectConversationNodes removeContainedElements
  rw [h1]
  simpa using List.Pairwise.sublist h2 (sortedUnique_lt candidates)

theorem collect_no_containment (candidates : List DomPath) :
    List.Pairwise (fun a b => ¬ a <+: b ∧ ¬ b <+: a) (collectConversationNodes candidates) := by
  unfold collectConversationNodes removeContainedElements
  refine removeContainedAux_pairwise _ [] ?_ List.Pairwise.nil
  simpa using sortedUnique_lt candidates

theorem collect_mem_of_max (candidates : List DomPath) (A : DomPath)
    (hA : A ∈ candidates) (hmax : ∀ C ∈ candidates, C ≠ A → ¬ C <+: A) :
    A ∈ collectConversationNodes candidates := by
  unfold collectConversationNodes removeContainedElements
  refine removeContainedAux_mem_max _ [] A
    (Or.inr ((mem_sortedUnique candidates A).mpr hA)) ?_ ?_
  · simpa using sortedUnique_nodup candidates
  · intro C hC hCA
    rcases hC with h | h
    · simp at h
    · exact hmax C ((mem_sortedUnique candidates C).mp h) hCA

theorem collect_max_excludes (candidates : List DomPath) (A B : DomPath)
    (hA : A ∈ candidates) (hmax : ∀ C ∈ candidates, C ≠ A → ¬ C <+: A)
    (hne : A ≠ B) (hpre : A <+: B) : B ∉ collectConversationNodes candidates := by
  intro hBmem
  have hAmem := collect_mem_of_max candidates A hA hmax
  have hsym : Symmetric (fun a b : DomPath => ¬ a <+: b ∧ ¬ b <+: a) :=
    fun a b h => ⟨h.2, h.1⟩
  exact (List.Pairwise.forall hsym (collect_no_containment candidates)
    hAmem hBmem hne).1 hpre

theorem collect_not_mem_of_contained (candidates : List DomPath) :
    ∀ (n : Nat) (A B : DomPath), A.length ≤ n → A ∈ candidates → B ∈ candidates →
      A ≠ B → A <+: B → B ∉ collectConversationNodes candidates := by
  intro n
  induction n with
  | zero =>
    intro A B hlen hA hB hne hpre
    have hAnil : A = [] := List.eq_nil_of_length_eq_zero (by omega)
    refine collect_max_excludes candidates A B hA ?_ hne hpre
    intro C _ hCne hCpre
    rw [hAnil] at hCpre hCne
    exact hCne (List.prefix_nil.mp hCpre)
  | succ n ihn =>
    intro A B hlen hA hB hne hpre
    by_cases hmax : ∀ C ∈ candidates, C ≠ A → ¬ C <+: A
    · exact collect_max_excludes candidates A B hA hmax hne hpre
    · push_neg at hmax
      obtain ⟨C, hC, hCne, hCpre⟩ := hmax
      have hClt : C.length < A.length := by
        have h1 := hCpre.length_le
        rcases Nat.lt_or_ge C.length A.length with h | h
        · exact h
        · exact absurd (List.IsPrefix.eq_of_length hCpre (by omega)) hCne
      have hCB : C <+: B := hCpre.trans hpre
      have hCneB : C ≠ B := by
        intro he
        have h2 := hpre.length_le
        rw [he] at hClt
        omega
      exact ihn C B (by omega) hC hB hCneB hCB

/-- Claim C5, amended: the collected sequence is deduplicated, in document
order, and no returned node is a descendant of another returned node; a
candidate that is contained in another (distinct) candidate is never
returned, and a candidate that is not contained in any other candidate is
always returned.  (The original claim's "returns A" holds only when A is not
itself a descendant of a third matching candidate — see the
counterexample.) -/
theorem collect_nodes_contract (candidates : List DomPath) (A B : DomPath) :
    List.Pairwise (· < ·) (collectConversationNodes candidates) ∧
    (collectConversationNodes candidates).Nodup ∧
    List.Pairwise (fun a b => ¬ a <+: b ∧ ¬ b <+: a) (collectConversationNodes candidates) ∧
    (A ∈ candidates → (∀ C ∈ candidates, C ≠ A → ¬ C <+: A) →
      A ∈ collectConversationNodes candidates) ∧
    (A ∈ candidates → B ∈ candidates → A ≠ B → A <+: B →
      B ∉ collectConversationNodes candidates) := by
  refine ⟨collect_sorted candidates, ?_, collect_no_containment candidates, ?_, ?_⟩
  · exact (collect_sorted candidates).imp (fun h => ne_of_lt h)
  · intro hA hmax
    exact collect_mem_of_max candidates A hA hmax
  · intro hA hB hne hpre
    exact collect_not_mem_of_contained candidates A.length A B (le_refl _) hA hB hne hpre

theorem collect_nodes_contract_witness :
    ([0] : DomPath) ∈ collectConversationNodes [[0, 1], [0], [2]] ∧
    ([0, 1] : DomPath) ∉ collectConversationNodes [[0, 1], [0], [2]] :=
  ⟨(collect_nodes_contract [[0, 1], [0], [2]] [0] [0, 1]).2.2.2.1 (by decide) (by decide),
    (collect_nodes_contract [[0, 1], [0], [2]] [0] [0, 1]).2.2.2.2
      (by decide) (by decide) (by decide) (by decide)⟩

/-- Claim C5 as literally stated fails: with candidates root ⊃ A ⊃ B
(paths `[]`, `[0]`, `[0,0]`), the pair (A, B) = (`[0]`, `[0,0]`) has A
containing B and both matching, yet the collector does not return A — only
the outermost node survives. -/
theorem collect_contained_counterexample :
    (([0] : DomPath) ≠ [0, 0] ∧ ([0] : DomPath) <+: [0, 0]) ∧
    collectConversationNodes [[], [0], [0, 0]] = [[]] ∧
    ([0] : DomPath) ∉ collectConversationNodes [[], [0], [0, 0]] := by
  decide

mutual
/-- the content of an `li` as `convertListItem` partitions it: the rendered
non-list children joined (`childParts.join("")`, kept abstract as `raw`) and
the nested `ul`/`ol` children, in order. -/
inductive MdItem : Type where
  | mk : List Char → List MdList → MdItem
/-- a `ul` (`ordered = false`) or `ol` (`ordered = true`) element with its
`li` children. -/
inductive MdList : Type where
  | mk : Bool → List MdItem → MdList
end

/-- the item text of `convertListItem`:
`cleanupMarkdownInline(childParts.join("")).replace(/\s+\n/g, "\n").trim()`. -/
def itemText (raw : List Char) : List Char :=
  trimChars (stripBeforeNL isJsWS (cleanupMarkdownInline raw))

/-- Model of `"  ".repeat(Math.max(0, ctx.listDepth - 1))` (truncated subtraction
plays the role of `Math.max(0, ...)`). -/
def itemIndent (depth : Nat) : List Char :=
  (List.replicate (depth - 1) [' ', ' ']).flatten

/-- the bullet: `` `${ctx.listIndex}. ` `` for an ordered list, `"- "`
otherwise. -/
def bulletFor (ordered : Bool) (idx : Nat) : List Char :=
  if ordered then (Nat.repr idx).data ++ ". ".data else "- ".data

/-- Model of `headLine` of `convertListItem`:
```${indent}${bullet}${text}`.trimEnd()``. -/
def itemHeadLine (ordered : Bool) (depth idx : Nat) (text : List Char) : List Char :=
  rtrimChars (itemIndent depth ++ bulletFor ordered idx ++ text)

/-- Model of `lines.join("\n")`. -/
def joinLines (lines : List (List Char)) : List Char := List.intercalate ['\n'] lines

mutual
/-- Model of `convertList(listEl, ctx)`: `depth` is `ctx.listDepth` at the call; the
items are rendered at `ctx.listDepth + 1` with `listIndex` starting at 1,
joined with newlines and followed by a blank line; an empty list renders to
the empty string. -/
def convertList : MdList → Nat → List Char
  | .mk _ [], _ => []
  | .mk ordered (i :: is), depth =>
    joinLines (convertItems (i :: is) ordered (depth + 1) 1) ++ "\n\n".data
/-- the item loop of `convertList` (`index` incremented per `li`). -/
def convertItems : List MdItem → Bool → Nat → Nat → List (List Char)
  | [], _, _, _ => []
  | i :: rest, ordered, depth, idx =>
    convertListItem i ordered depth idx :: convertItems rest ordered depth (idx + 1)
/-- Model of `convertListItem(li, ctx)`: the head line, then the nested lists (each
rendered at the item's own depth and right-trimmed, empty ones dropped)
joined on the following lines. -/
def convertListItem : MdItem → Bool → Nat → Nat → List Char
  | .mk raw nested, ordered, depth, idx =>
    if joinLines ((convertNested nested depth).filter (fun s => s ≠ [])) = [] then
      itemHeadLine ordered depth idx (itemText raw)
    else
      itemHeadLine ordered depth idx (itemText raw) ++
        '\n' :: joinLines ((convertNested nested depth).filter (fun s => s ≠ []))
/-- Model of `nestedLists.map(nl => convertList(nl, ctx).trimEnd())`. -/
def convertNested : List MdList → Nat → List (List Char)
  | [], _ => []
  | nl :: rest, depth => rtrimChars (convertList nl depth) :: convertNested rest depth
end

theorem itemIndent_eq (depth : Nat) :
    itemIndent depth = List.replicate (2 * (depth - 1)) ' ' := by
  unfold itemIndent
  generalize depth - 1 = n
  induction n with
  | zero => rfl
  | succ n ih =>
    rw [List.replicate_succ, List.flatten_cons, ih]
    have : 2 * (n + 1) = (2 * n) + 1 + 1 := by omega
    rw [this, List.replicate_succ, List.replicate_succ]
    rfl

theorem rtrim_append_fixed (x t : List Char) (hne : t ≠ []) (h : rtrimChars t = t) :
    rtrimChars (x ++ t) = x ++ t := by
  unfold rtrimChars at h ⊢
  have hdw : t.reverse.dropWhile isJsWS = t.reverse := by
    have := congrArg List.reverse h
    rwa [List.reverse_reverse] at this
  cases hrev : t.reverse with
  | nil =>
    exact absurd (by simpa using congrArg List.reverse hrev) hne
  | cons c t' =>
    have hhead : isJsWS c = false := by
      refine dropWhile_head_false isJsWS t.reverse c t' ?_
      rw [hdw, hrev]
    rw [List.reverse_append]
    have hstep : (t.reverse ++ x.reverse).dropWhile isJsWS = t.reverse ++ x.reverse := by
      rw [hrev, List.cons_append, List.dropWhile_cons, if_neg (by simp [hhead])]
    rw [hstep, ← List.reverse_append, List.reverse_reverse]

theorem rtrim_trim (l : List Char) : rtrimChars (trimChars l) = trimChars l :=
  rtrim_idem (ltrimChars l)

theorem itemHeadLine_eq (ordered : Bool) (depth idx : Nat) (raw : List Char)
    (hne : itemText raw ≠ []) :
    itemHeadLine ordered depth idx (itemText raw) =
      itemIndent depth ++ (bulletFor ordered idx ++ itemText raw) := by
  unfold itemHeadLine
  rw [← List.append_assoc]
  exact rtrim_append_fixed (itemIndent depth ++ bulletFor ordered idx) (itemText raw)
    hne (rtrim_trim _)

theorem convertItems_length (items : List MdItem) (ordered : Bool) (depth idx : Nat) :
    (convertItems items ordered depth idx).length = items.length := by
  induction items generalizing idx with
  | nil => rfl
  | cons i rest ih =>
    rw [convertItems]
    simp [ih]

theorem convertItems_get (items : List MdItem) (ordered : Bool) (depth idx : Nat) :
    ∀ (k : Nat) (hk : k < items.length),
      (convertItems items ordered depth idx).get
          ⟨k, by rw [convertItems_length]; exact hk⟩ =
        convertListItem (items.get ⟨k, hk⟩) ordered depth (idx + k) := by
  induction items generalizing idx with
  | nil => intro k hk; simp at hk
  | cons i rest ih =>
    intro k hk
    cases k with
    | zero => rfl
    | succ k =>
      have hk' : k < rest.length := by simpa using hk
      have := ih (idx + 1) k hk'
      simpa [convertItems, Nat.add_assoc, Nat.add_comm 1 k] using this

theorem convertList_eq (ordered : Bool) (items : List MdItem) (depth : Nat)
    (hne : items ≠ []) :
    convertList (MdList.mk ordered items) depth =
      joinLines (convertItems items ordered (depth + 1) 1) ++ "\n\n".data := by
  cases items with
  | nil => exact absurd rfl hne
  | cons i is => rw [convertList]

/-- Claim C9, amended: every `li` of an unordered list at list depth `d` is
rendered with exactly `2*(d-1)` leading spaces and the bullet `- ` — provided
its own rendered text is nonempty; an item whose own text is empty has the
bullet's trailing space removed by the `trimEnd` on the head line (see the
counterexample).  Ordered lists number their items `1..N` in encounter order
(`listIndex` starts at 1 and increments only at that list's own level), and
every list — in particular every nested list — restarts numbering at 1. -/
theorem list_rendering_contract (raw : List Char) (nested : List MdList)
    (ordered : Bool) (depth idx : Nat) (items : List MdItem) :
    itemIndent depth = List.replicate (2 * (depth - 1)) ' ' ∧
    (itemText raw ≠ [] →
      itemHeadLine false depth idx (itemText raw) =
        List.replicate (2 * (depth - 1)) ' ' ++ ("- ".data ++ itemText raw)) ∧
    (itemText raw ≠ [] →
      itemHeadLine true depth idx (itemText raw) =
        List.replicate (2 * (depth - 1)) ' ' ++
          ((Nat.repr idx).data ++ (". ".data ++ itemText raw))) ∧
    (∃ tail : List Char,
      convertListItem (MdItem.mk raw nested) ordered depth idx =
        itemHeadLine ordered depth idx (itemText raw) ++ tail ∧
      (tail = [] ∨ tail.head? = some '\n')) ∧
    (items ≠ [] →
      convertList (MdList.mk ordered items) depth =
        joinLines (convertItems items ordered (depth + 1) 1) ++ "\n\n".data) ∧
    (∀ (k : Nat) (hk : k < items.length),
      (convertItems items ordered (depth + 1) 1).get
          ⟨k, by rw [convertItems_length]; exact hk⟩ =
        convertListItem (items.get ⟨k, hk⟩) ordered (depth + 1) (1 + k)) := by
  refine ⟨itemIndent_eq depth, ?_, ?_, ?_, convertList_eq ordered items depth, ?_⟩
  · intro hne
    rw [itemHeadLine_eq false depth idx raw hne, itemIndent_eq]
    simp [bulletFor]
  · intro hne
    rw [itemHeadLine_eq true depth idx raw hne, itemIndent_eq]
    simp [bulletFor]
  · rw [convertListItem]
    by_cases h : joinLines ((convertNested nested depth).filter (fun s => s ≠ [])) = []
    · exact ⟨[], by rw [if_pos h]; simp, Or.inl rfl⟩
    · exact ⟨'\n' :: joinLines ((convertNested nested depth).filter (fun s => s ≠ [])),
        by rw [if_neg h], Or.inr rfl⟩
  · intro k hk
    exact convertItems_get items ordered (depth + 1) 1 k hk

theorem list_rendering_contract_witness :
    itemHeadLine false 1 1 (itemText "x".data) =
      List.replicate (2 * (1 - 1)) ' ' ++ ("- ".data ++ itemText "x".data) ∧
    convertList (MdList.mk true [MdItem.mk "x".data []]) 0 =
      joinLines (convertItems [MdItem.mk "x".data []] true 1 1) ++ "\n\n".data :=
  ⟨(list_rendering_contract "x".data [] false 1 1 []).2.1 (by decide),
    (list_rendering_contract "x".data [] true 0 1 [MdItem.mk "x".data []]).2.2.2.2.1
      (List.cons_ne_nil _ _)⟩

/-- Claim C9 as literally stated fails on an item with empty own text: a
2-level nested unordered list whose outer `li` holds only the inner list
renders the outer item as a bare `-` (the `trimEnd` on the head line eats the
bullet's trailing space), so the line is not `2*(d-1)` spaces followed by the
literal `- `. -/
theorem list_bullet_counterexample :
    convertListItem (MdItem.mk [] [MdList.mk false [MdItem.mk "x".data []]]) false 1 1 =
      "-\n  - x".data ∧
    ¬ "- ".data <+:
        convertListItem (MdItem.mk [] [MdList.mk false [MdItem.mk "x".data []]]) false 1 1 := by
  decide

theorem fence_safety_witness :
    (makeFence "a``b".data).length = 3 ∧
    ¬ makeFence "a``b".data <:+: "a``b".data ∧
    (makeInlineFence "a``b".data).length = 3 ∧
    ¬ makeInlineFence "a``b".data <:+: "a``b".data :=
  ⟨by decide, (fence_safety "a``b".data "a``b".data).2.2.1, by decide,
    (fence_safety "a``b".data "a``b".data).2.2.2.2.2⟩
